import Mathlib

/-!
Shallow embedding of the document extraction/reinjection core of
`src/app.py` (resume-tailor).

The document container (python-docx) is modelled abstractly, following the
format-agnostic content model the program relies on: a document is an ordered
list of top-level blocks; a block is a paragraph (ordered runs, each a style
plus a text payload) or a table (rows of cells, each cell an ordered list of
paragraphs).  Style and formatting attributes are opaque and are modelled as a
single `Nat` tag per run / paragraph / table.  A paragraph's derived text is
the concatenation of its runs' texts; a paragraph with no runs carries a
directly settable text attribute (`directText`, initially empty), which models
the library's `paragraph.text` attribute for the run-less case that
`rewrite_doc_in_place` writes through.  A cell's derived text joins its
paragraphs' texts with a newline, as the library's `cell.text` does.

Python string primitives used by the source (`str.strip`, `str.rstrip`,
`str.splitlines`, `str.join`) are embedded explicitly below.
-/

namespace ResumeTailor

/-- Minimal unit of styled text in a paragraph: opaque style tag + text. -/
structure Run where
  style : Nat
  text : String
deriving Repr, DecidableEq

/-- Paragraph: opaque paragraph style, ordered runs, and the directly set
text used when the paragraph has no runs (`paragraph.text = line`). -/
structure Paragraph where
  pStyle : Nat
  runs : List Run
  directText : String
deriving Repr, DecidableEq

/-- Derived full text of a paragraph: concatenation of run texts, or the
directly set text when there are no runs. -/
def Paragraph.text (p : Paragraph) : String :=
  if p.runs.isEmpty then p.directText else String.join (p.runs.map Run.text)

/-- Table cell: an ordered list of paragraphs. -/
structure Cell where
  paragraphs : List Paragraph
deriving Repr, DecidableEq

/-- Derived full text of a cell: its paragraphs' texts joined by newline,
as the document library's `cell.text` computes it. -/
def Cell.text (c : Cell) : String :=
  String.intercalate "\n" (c.paragraphs.map Paragraph.text)

/-- Table row: an ordered list of cells. -/
structure Row where
  cells : List Cell
deriving Repr, DecidableEq

/-- Table: opaque style tag and ordered rows. -/
structure Table where
  tStyle : Nat
  rows : List Row
deriving Repr, DecidableEq

/-- Top-level block: a paragraph or a table, as discriminated by
`_iter_block_items`. -/
inductive Block where
  | para (p : Paragraph)
  | table (t : Table)
deriving Repr, DecidableEq

/-- Document: the ordered list of top-level body children. -/
structure Document where
  body : List Block
deriving Repr, DecidableEq

/-- Embedding of `_iter_block_items`: yield paragraphs and tables in document
order.  The walk is a pure read of the body's child list. -/
def _iter_block_items (d : Document) : List Block := d.body

/-- Whitespace as Python's `str.strip`/`str.rstrip` treat it (ASCII part):
space, tab, newline, carriage return, vertical tab, form feed. -/
def pyWhitespace (c : Char) : Bool :=
  c = ' ' || c = '\t' || c = '\n' || c = '\r' ||
  c = Char.ofNat 11 || c = Char.ofNat 12

/-- Embedding of Python `str.strip()`: drop leading and trailing whitespace. -/
def pyStrip (s : String) : String :=
  String.mk (((s.data.dropWhile pyWhitespace).reverse.dropWhile pyWhitespace).reverse)

/-- Embedding of Python `str.rstrip()`: drop trailing whitespace only. -/
def pyRstrip (s : String) : String :=
  String.mk ((s.data.reverse.dropWhile pyWhitespace).reverse)

/-- Lines contributed by one paragraph block in `extract_text_snapshot`:
the stripped text if non-empty, else nothing. -/
def paragraphSnapshot (p : Paragraph) : List String :=
  let txt := pyStrip p.text
  if txt = "" then [] else [txt]

/-- Lines contributed by one table row in `extract_text_snapshot`:
`" | ".join(cell.text.strip() for cell in row.cells)`, kept only when the
joined text is non-blank. -/
def rowSnapshot (row : Row) : List String :=
  let row_txt := String.intercalate " | " (row.cells.map (fun c => pyStrip c.text))
  if pyStrip row_txt = "" then [] else [row_txt]

/-- Lines contributed by one block in `extract_text_snapshot`. -/
def blockSnapshot : Block → List String
  | Block.para p => paragraphSnapshot p
  | Block.table t => (t.rows.map rowSnapshot).flatten

/-- Ordered line list produced by `extract_text_snapshot` before joining. -/
def snapshotLines (d : Document) : List String :=
  ((_iter_block_items d).map blockSnapshot).flatten

/-- Embedding of `extract_text_snapshot`: the plain-text snapshot sent to the
rewriting service, lines joined with newline. -/
def extract_text_snapshot (d : Document) : String :=
  String.intercalate "\n" (snapshotLines d)

/-- State-threading form of an extraction pass over the walked blocks: the
loop body of `extract_text_snapshot` only reads each block, so each block is
returned unchanged alongside the lines it contributes. -/
def extractSt : List Block → List String × List Block
  | [] => ([], [])
  | b :: bs =>
      let (ls, bs2) := extractSt bs
      (blockSnapshot b ++ ls, b :: bs2)

/-- Python `str.splitlines` line-boundary characters (the code points
Python recognises; `"\r\n"` is handled as a single boundary separately). -/
def isLineBreak (c : Char) : Bool :=
  c = '\n' || c = '\r' || c = Char.ofNat 11 || c = Char.ofNat 12 ||
  c = Char.ofNat 0x1c || c = Char.ofNat 0x1d || c = Char.ofNat 0x1e ||
  c = Char.ofNat 0x85 || c = Char.ofNat 0x2028 || c = Char.ofNat 0x2029

/-- Worker for `splitlines`: `prevCR` records whether the previous character
was a carriage return that already closed a line (so an immediately following
newline is part of the same `"\r\n"` boundary and is skipped); `acc` holds
the current line's characters in reverse.  A boundary emits the accumulated
line (empty lines included); a final unterminated segment is emitted only if
non-empty, matching Python. -/
def splitlinesGo : Bool → List Char → List Char → List String
  | _, [], acc => if acc.isEmpty then [] else [String.mk acc.reverse]
  | prevCR, c :: rest, acc =>
      if prevCR && c = '\n' then splitlinesGo false rest acc
      else if c = '\r' then String.mk acc.reverse :: splitlinesGo true rest []
      else if isLineBreak c then String.mk acc.reverse :: splitlinesGo false rest []
      else splitlinesGo false rest (c :: acc)

/-- Embedding of Python `str.splitlines()`. -/
def splitlines (s : String) : List String :=
  splitlinesGo false s.data []

/-- Embedding of the `next_line` closure of `rewrite_doc_in_place`: pop the
next revised line, or return the empty string once the iterator is
exhausted (`StopIteration` is swallowed). -/
def next_line : List String → String × List String
  | [] => ("", [])
  | l :: ls => (l, ls)

/-- The run-overwrite-or-direct-set policy applied to one paragraph during
reinjection: write the popped line into run 0 and blank every later run, or
set the paragraph text directly when it has no runs. -/
def setParagraphLine (p : Paragraph) (line : String) : Paragraph :=
  match p.runs with
  | [] => { p with directText := line }
  | r :: rs =>
      { p with runs := { r with text := line } :: rs.map (fun r2 => { r2 with text := "" }) }

/-- Reinjection step for one table cell: the popped line is applied to the
cell's first paragraph; a cell with no paragraphs is left unchanged (the
line was already consumed by the caller). -/
def rewriteCell (c : Cell) (line : String) : Cell :=
  match c.paragraphs with
  | [] => c
  | p :: ps => ⟨setParagraphLine p line :: ps⟩

/-- Reinjection over the cells of one row: each cell pops one line. -/
def rewriteCells : List Cell → List String → List Cell × List String
  | [], lines => ([], lines)
  | c :: cs, lines =>
      let (line, rest) := next_line lines
      let (cs2, lines2) := rewriteCells cs rest
      (rewriteCell c line :: cs2, lines2)

/-- Reinjection over a table's rows, row-major. -/
def rewriteRows : List Row → List String → List Row × List String
  | [], lines => ([], lines)
  | row :: rws, lines =>
      let (cs2, lines1) := rewriteCells row.cells lines
      let (rws2, lines2) := rewriteRows rws lines1
      (⟨cs2⟩ :: rws2, lines2)

/-- Reinjection over the walked blocks, sharing one forward line cursor:
each paragraph block pops one line; each table pops one line per cell. -/
def rewriteBlocks : List Block → List String → List Block × List String
  | [], lines => ([], lines)
  | Block.para p :: bs, lines =>
      let (line, rest) := next_line lines
      let (bs2, lines2) := rewriteBlocks bs rest
      (Block.para (setParagraphLine p line) :: bs2, lines2)
  | Block.table t :: bs, lines =>
      let (rws2, lines1) := rewriteRows t.rows lines
      let (bs2, lines2) := rewriteBlocks bs lines1
      (Block.table { t with rows := rws2 } :: bs2, lines2)

/-- Embedding of `rewrite_doc_in_place`: split the revised text into lines,
right-strip each, and walk the document consuming one line per structural
slot.  Total by construction: no exception is raised on length mismatch. -/
def rewrite_doc_in_place (d : Document) (revised_text : String) : Document :=
  let new_lines := (splitlines revised_text).map pyRstrip
  ⟨(rewriteBlocks (_iter_block_items d) new_lines).1⟩

/-- Number of structural slots of a table: one per cell, row-major. -/
def cellSlots (t : Table) : Nat :=
  (t.rows.map (fun r => r.cells.length)).sum

/-- Number of lines one block consumes during reinjection. -/
def blockSlots : Block → Nat
  | Block.para _ => 1
  | Block.table t => cellSlots t

/-- Total number of structural slots of a document: the number of lines the
reinjection walk consumes. -/
def slotCount (d : Document) : Nat :=
  ((_iter_block_items d).map blockSlots).sum

/-- Run with its text erased; scrubbing witnesses that a transformation
changed nothing but text. -/
def scrubRun (r : Run) : Run := { r with text := "" }

/-- Paragraph with all text content erased (run texts and direct text),
keeping styles and run count. -/
def scrubParagraph (p : Paragraph) : Paragraph :=
  { pStyle := p.pStyle, runs := p.runs.map scrubRun, directText := "" }

/-- Cell with all text content erased. -/
def scrubCell (c : Cell) : Cell := ⟨c.paragraphs.map scrubParagraph⟩

/-- Row with all text content erased. -/
def scrubRow (row : Row) : Row := ⟨row.cells.map scrubCell⟩

/-- Table with all text content erased. -/
def scrubTable (t : Table) : Table := { t with rows := t.rows.map scrubRow }

/-- Block with all text content erased. -/
def scrubBlock : Block → Block
  | Block.para p => Block.para (scrubParagraph p)
  | Block.table t => Block.table (scrubTable t)

/-- Document with all text content erased: two documents have equal scrubs
iff they agree on every block kind, style attribute and structural count,
differing at most in text payloads. -/
def scrubDoc (d : Document) : Document := ⟨d.body.map scrubBlock⟩

/-!
Embedding of the rewriting-service adapter `call_hf_llm`.  The HTTP layer is
abstracted as a function from the attempt index to the response received on
that attempt; a response is its status code plus the generated text the
200-branch would extract (the `requests`/JSON decoding ladder is external
library behaviour).  Sleeps are recorded as the list of delay durations
(seconds) the loop performs, in order.
-/

/-- Response of one attempt against the inference API: HTTP status and the
payload text the success branch extracts. -/
structure HfResponse where
  status : Nat
  payload : String
deriving Repr, DecidableEq

/-- Outcome of `call_hf_llm`: generated text, an immediately raised API
error, or the post-loop retry-limit error. -/
inductive HfResult where
  | ok (text : String)
  | apiError (status : Nat) (err : String)
  | retryLimit
deriving Repr, DecidableEq

/-- The 200-branch of `call_hf_llm`: the extracted generated text, stripped. -/
def parse200 (r : HfResponse) : String := pyStrip r.payload

/-- Statuses the loop treats as transient: 503 (model loading) and 429
(rate limit). -/
def isTransientStatus (n : Nat) : Bool := n == 503 || n == 429

/-- Delay slept after transient attempt number `attempt`:
`time.sleep(3 + attempt * 2)`. -/
def sleepDelay (attempt : Nat) : Nat := 3 + attempt * 2

/-- Loop body of `call_hf_llm`: `attempt` is the current attempt index,
`remaining` the number of loop iterations left out of `range(5)`.  Returns
the outcome and the list of sleep delays performed. -/
def hfLoopAux (rs : Nat → HfResponse) : Nat → Nat → HfResult × List Nat
  | _, 0 => (HfResult.retryLimit, [])
  | attempt, remaining + 1 =>
      let resp := rs attempt
      if resp.status == 200 then (HfResult.ok (parse200 resp), [])
      else if isTransientStatus resp.status then
        let (res, sleeps) := hfLoopAux rs (attempt + 1) remaining
        (res, sleepDelay attempt :: sleeps)
      else (HfResult.apiError resp.status resp.payload, [])

/-- Embedding of `call_hf_llm`'s retry loop: up to 5 attempts starting at
attempt 0; exhaustion raises the retry-limit error. -/
def call_hf_llm (rs : Nat → HfResponse) : HfResult × List Nat :=
  hfLoopAux rs 0 5

/-! Helper lemmas about the line cursor. -/

lemma next_line_fst (ls : List String) : (next_line ls).1 = ls.headD "" := by
  cases ls <;> rfl

lemma next_line_snd (ls : List String) : (next_line ls).2 = ls.drop 1 := by
  cases ls <;> rfl

lemma rewriteCells_snd (cs : List Cell) : ∀ ls : List String,
    (rewriteCells cs ls).2 = ls.drop cs.length := by
  induction cs with
  | nil => intro ls; rfl
  | cons c cs ih =>
      intro ls
      simp only [rewriteCells, next_line_snd, ih, List.drop_drop, List.length_cons]
      congr 1
      omega

lemma rewriteRows_snd (rws : List Row) : ∀ ls : List String,
    (rewriteRows rws ls).2 = ls.drop ((rws.map (fun r => r.cells.length)).sum) := by
  induction rws with
  | nil => intro ls; rfl
  | cons row rws ih =>
      intro ls
      simp only [rewriteRows, rewriteCells_snd, ih, List.drop_drop, List.map_cons, List.sum_cons]

lemma rewriteBlocks_snd (bs : List Block) : ∀ ls : List String,
    (rewriteBlocks bs ls).2 = ls.drop ((bs.map blockSlots).sum) := by
  induction bs with
  | nil => intro ls; rfl
  | cons b bs ih =>
      intro ls
      cases b with
      | para p =>
          simp only [rewriteBlocks, next_line_snd, ih, List.drop_drop, List.map_cons,
            List.sum_cons, blockSlots]
      | table t =>
          simp only [rewriteBlocks, rewriteRows_snd, ih, List.drop_drop, List.map_cons,
            List.sum_cons, blockSlots, cellSlots]

lemma take_succ_headD (ls : List String) (k : Nat) :
    (ls.take (k + 1)).headD "" = ls.headD "" := by
  cases ls <;> simp

lemma take_succ_drop_one (ls : List String) (k : Nat) :
    (ls.take (k + 1)).drop 1 = (ls.drop 1).take k := by
  cases ls <;> simp

lemma rewriteCells_take (cs : List Cell) : ∀ (ls : List String) (m : Nat),
    (rewriteCells cs (ls.take (cs.length + m))).1 = (rewriteCells cs ls).1 := by
  induction cs with
  | nil => intro ls m; rfl
  | cons c cs ih =>
      intro ls m
      have hn : (c :: cs).length + m = (cs.length + m) + 1 := by simp; omega
      rw [hn]
      simp only [rewriteCells, next_line_fst, next_line_snd, take_succ_headD,
        take_succ_drop_one, ih]

lemma rewriteRows_take (rws : List Row) : ∀ (ls : List String) (m : Nat),
    (rewriteRows rws (ls.take ((rws.map (fun r => r.cells.length)).sum + m))).1 =
      (rewriteRows rws ls).1 := by
  induction rws with
  | nil => intro ls m; rfl
  | cons row rws ih =>
      intro ls m
      have hn : ((row :: rws).map (fun r => r.cells.length)).sum + m =
          row.cells.length + ((rws.map (fun r => r.cells.length)).sum + m) := by
        simp; omega
      rw [hn]
      have hc := rewriteCells_take row.cells ls ((rws.map (fun r => r.cells.length)).sum + m)
      simp only [rewriteRows, hc, rewriteCells_snd]
      have hd : (ls.take (row.cells.length + ((rws.map (fun r => r.cells.length)).sum + m))).drop
          row.cells.length = (ls.drop row.cells.length).take
            ((rws.map (fun r => r.cells.length)).sum + m) := by
        rw [List.drop_take]
        congr 1
        omega
      rw [hd, ih]

lemma rewriteBlocks_take (bs : List Block) : ∀ (ls : List String) (m : Nat),
    (rewriteBlocks bs (ls.take ((bs.map blockSlots).sum + m))).1 =
      (rewriteBlocks bs ls).1 := by
  induction bs with
  | nil => intro ls m; rfl
  | cons b bs ih =>
      intro ls m
      cases b with
      | para p =>
          have hn : ((Block.para p :: bs).map blockSlots).sum + m =
              ((bs.map blockSlots).sum + m) + 1 := by
            simp [blockSlots]; omega
          rw [hn]
          simp only [rewriteBlocks, next_line_fst, next_line_snd, take_succ_headD,
            take_succ_drop_one, ih]
      | table t =>
          have hn : ((Block.table t :: bs).map blockSlots).sum + m =
              cellSlots t + ((bs.map blockSlots).sum + m) := by
            simp [blockSlots]; omega
          rw [hn]
          have hr := rewriteRows_take t.rows ls ((bs.map blockSlots).sum + m)
          simp only [rewriteBlocks, cellSlots] at hr ⊢
          rw [hr]
          simp only [rewriteRows_snd]
          have hd : (ls.take ((t.rows.map (fun r => r.cells.length)).sum +
              ((bs.map blockSlots).sum + m))).drop ((t.rows.map (fun r => r.cells.length)).sum) =
              (ls.drop ((t.rows.map (fun r => r.cells.length)).sum)).take
                ((bs.map blockSlots).sum + m) := by
            rw [List.drop_take]
            congr 1
            omega
          rw [hd, ih]

lemma drop_append_replicate (ls : List String) : ∀ (n m : Nat),
    (ls ++ List.replicate m "").drop n = ls.drop n ++ List.replicate (m - (n - ls.length)) "" := by
  induction ls with
  | nil =>
      intro n m
      simp [List.drop_replicate]
  | cons l t ih =>
      intro n m
      cases n with
      | zero => simp
      | succ k =>
          simp only [List.cons_append, List.drop_succ_cons, ih, List.length_cons]
          congr 2
          omega

lemma headD_append_blank (ls : List String) (m : Nat) :
    (ls ++ List.replicate m "").headD "" = ls.headD "" := by
  cases ls with
  | nil => cases m <;> simp [List.replicate_succ]
  | cons l t => simp

lemma rewriteCells_pad (cs : List Cell) : ∀ (ls : List String) (m : Nat),
    (rewriteCells cs (ls ++ List.replicate m "")).1 = (rewriteCells cs ls).1 := by
  induction cs with
  | nil => intro ls m; rfl
  | cons c cs ih =>
      intro ls m
      simp only [rewriteCells, next_line_fst, next_line_snd, headD_append_blank,
        drop_append_replicate, ih]

lemma rewriteRows_pad (rws : List Row) : ∀ (ls : List String) (m : Nat),
    (rewriteRows rws (ls ++ List.replicate m "")).1 = (rewriteRows rws ls).1 := by
  induction rws with
  | nil => intro ls m; rfl
  | cons row rws ih =>
      intro ls m
      simp only [rewriteRows, rewriteCells_pad, rewriteCells_snd,
        drop_append_replicate, ih]

lemma rewriteBlocks_pad (bs : List Block) : ∀ (ls : List String) (m : Nat),
    (rewriteBlocks bs (ls ++ List.replicate m "")).1 = (rewriteBlocks bs ls).1 := by
  induction bs with
  | nil => intro ls m; rfl
  | cons b bs ih =>
      intro ls m
      cases b with
      | para p =>
          simp only [rewriteBlocks, next_line_fst, next_line_snd, headD_append_blank,
            drop_append_replicate, ih]
      | table t =>
          simp only [rewriteBlocks, rewriteRows_pad, rewriteRows_snd,
            drop_append_replicate, ih]

/-- C1: a paragraph whose text is empty or whitespace-only contributes zero
lines to the snapshot extraction, while during reinjection the same paragraph
block still pops exactly one line (the head of the cursor) before the
remaining blocks are processed on the one-shorter cursor. -/
theorem empty_paragraph_line_accounting (p : Paragraph) (bs : List Block)
    (ls : List String) (h : pyStrip p.text = "") :
    snapshotLines ⟨Block.para p :: bs⟩ = snapshotLines ⟨bs⟩ ∧
    rewriteBlocks (Block.para p :: bs) ls =
      (Block.para (setParagraphLine p (ls.headD "")) :: (rewriteBlocks bs (ls.drop 1)).1,
       (rewriteBlocks bs (ls.drop 1)).2) := by
  constructor
  · simp [snapshotLines, _iter_block_items, blockSnapshot, paragraphSnapshot, h]
  · simp only [rewriteBlocks, next_line_fst, next_line_snd]

/-- Witness for C1 at a concrete whitespace-only paragraph: it is absent from
the extracted lines yet consumes the first revised line. -/
theorem empty_paragraph_line_accounting_witness :
    snapshotLines ⟨Block.para ⟨0, [⟨7, "  "⟩], ""⟩ :: [Block.para ⟨0, [⟨1, "B"⟩], ""⟩]⟩ =
      snapshotLines ⟨[Block.para ⟨0, [⟨1, "B"⟩], ""⟩]⟩ ∧
    rewriteBlocks (Block.para ⟨0, [⟨7, "  "⟩], ""⟩ :: [Block.para ⟨0, [⟨1, "B"⟩], ""⟩])
        ["x", "y"] =
      (Block.para (setParagraphLine ⟨0, [⟨7, "  "⟩], ""⟩ (["x", "y"].headD "")) ::
        (rewriteBlocks [Block.para ⟨0, [⟨1, "B"⟩], ""⟩] (["x", "y"].drop 1)).1,
       (rewriteBlocks [Block.para ⟨0, [⟨1, "B"⟩], ""⟩] (["x", "y"].drop 1)).2) :=
  empty_paragraph_line_accounting ⟨0, [⟨7, "  "⟩], ""⟩ [Block.para ⟨0, [⟨1, "B"⟩], ""⟩]
    ["x", "y"] (by decide)

/-- C2: reinjection is total on any line/slot mismatch.  The walk consumes
exactly `slotCount` lines, leaving every extra line unconsumed; the produced
document depends only on the first `slotCount` lines (extra lines are never
applied); and padding the revised lines with empty strings up to the slot
count changes nothing, i.e. once the cursor runs out every remaining slot
receives the empty string. -/
theorem mismatch_graceful_degradation (d : Document) (ls : List String) :
    (rewriteBlocks (_iter_block_items d) ls).2 = ls.drop (slotCount d) ∧
    (rewriteBlocks (_iter_block_items d) ls).1 =
      (rewriteBlocks (_iter_block_items d) (ls.take (slotCount d))).1 ∧
    (rewriteBlocks (_iter_block_items d) ls).1 =
      (rewriteBlocks (_iter_block_items d)
        (ls ++ List.replicate (slotCount d - ls.length) "")).1 := by
  refine ⟨rewriteBlocks_snd _ ls, ?_, (rewriteBlocks_pad _ ls _).symm⟩
  have h := rewriteBlocks_take (_iter_block_items d) ls 0
  rw [Nat.add_zero] at h
  exact h.symm

/-! Structure preservation: scrubbing text commutes with reinjection. -/

lemma map_text_blank (rs : List Run) :
    (rs.map (fun r2 => { r2 with text := "" })).map Run.text =
      List.replicate rs.length "" := by
  induction rs with
  | nil => rfl
  | cons r rs ih => simp [ih, List.replicate_succ]

lemma scrub_setParagraphLine (p : Paragraph) (line : String) :
    scrubParagraph (setParagraphLine p line) = scrubParagraph p := by
  rcases p with ⟨st, runs, dt⟩
  cases runs with
  | nil => simp [setParagraphLine, scrubParagraph]
  | cons r rs =>
      simp [setParagraphLine, scrubParagraph, scrubRun, List.map_map, Function.comp]

lemma scrub_rewriteCell (c : Cell) (line : String) :
    scrubCell (rewriteCell c line) = scrubCell c := by
  rcases c with ⟨ps⟩
  cases ps with
  | nil => rfl
  | cons p ps => simp [rewriteCell, scrubCell, scrub_setParagraphLine]

lemma scrub_rewriteCells (cs : List Cell) : ∀ ls : List String,
    (rewriteCells cs ls).1.map scrubCell = cs.map scrubCell := by
  induction cs with
  | nil => intro ls; rfl
  | cons c cs ih => intro ls; simp [rewriteCells, scrub_rewriteCell, ih]

lemma scrub_rewriteRows (rws : List Row) : ∀ ls : List String,
    (rewriteRows rws ls).1.map scrubRow = rws.map scrubRow := by
  induction rws with
  | nil => intro ls; rfl
  | cons row rws ih =>
      intro ls
      simp [rewriteRows, scrubRow, scrub_rewriteCells, ih]

lemma scrub_rewriteBlocks (bs : List Block) : ∀ ls : List String,
    (rewriteBlocks bs ls).1.map scrubBlock = bs.map scrubBlock := by
  induction bs with
  | nil => intro ls; rfl
  | cons b bs ih =>
      intro ls
      cases b with
      | para p => simp [rewriteBlocks, scrubBlock, scrub_setParagraphLine, ih]
      | table t => simp [rewriteBlocks, scrubBlock, scrubTable, scrub_rewriteRows, ih]

/-- C4: reinjection changes only text payloads.  Erasing every text payload
(run texts, direct paragraph texts) from the reinjected document gives
exactly the erasure of the original, so block count and kinds, table row and
cell counts, run counts, and every opaque style tag of runs, paragraphs and
tables are untouched; in particular the number of top-level blocks is
preserved. -/
theorem reinjection_structure_preserving (d : Document) (revised_text : String) :
    scrubDoc (rewrite_doc_in_place d revised_text) = scrubDoc d ∧
    (rewrite_doc_in_place d revised_text).body.length = d.body.length := by
  constructor
  · simp [rewrite_doc_in_place, scrubDoc, _iter_block_items, scrub_rewriteBlocks]
  · have h := scrub_rewriteBlocks (_iter_block_items d)
      ((splitlines revised_text).map pyRstrip)
    have hlen := congrArg List.length h
    simpa [rewrite_doc_in_place, _iter_block_items] using hlen

/-- C3: the run-overwrite policy applied to each paragraph encountered during
reinjection.  Styles and run count survive; with at least one run, run 0
receives the popped line and every later run becomes empty (so the paragraph
text equals the line); with no runs the paragraph text attribute is set
directly.  The policy is applied to a top-level paragraph block with the
popped head of the cursor, and to the first paragraph of a cell with the line
popped for that cell. -/
theorem run_overwrite_policy (p : Paragraph) (line : String) :
    ((setParagraphLine p line).pStyle = p.pStyle ∧
     (setParagraphLine p line).runs.map Run.style = p.runs.map Run.style) ∧
    (p.runs ≠ [] →
      (setParagraphLine p line).runs.map Run.text =
        line :: List.replicate (p.runs.length - 1) "") ∧
    (p.runs = [] → setParagraphLine p line = { p with directText := line }) ∧
    (setParagraphLine p line).text = line ∧
    (∀ (bs : List Block) (ls : List String),
      rewriteBlocks (Block.para p :: bs) ls =
        (Block.para (setParagraphLine p (ls.headD "")) :: (rewriteBlocks bs (ls.drop 1)).1,
         (rewriteBlocks bs (ls.drop 1)).2)) ∧
    (∀ (c : Cell) (ps : List Paragraph), c.paragraphs = p :: ps →
      rewriteCell c line = ⟨setParagraphLine p line :: ps⟩) := by
  rcases p with ⟨st, runs, dt⟩
  refine ⟨?_, ?_, ?_, ?_, ?_, ?_⟩
  · cases runs with
    | nil => simp [setParagraphLine]
    | cons r rs => simp [setParagraphLine, List.map_map, Function.comp]
  · intro h
    cases runs with
    | nil => exact absurd rfl h
    | cons r rs =>
        simp only [setParagraphLine, List.map_cons, map_text_blank, List.length_cons,
          Nat.add_sub_cancel]
  · intro h
    cases runs with
    | nil => rfl
    | cons r rs => simp at h
  · cases runs with
    | nil => simp [setParagraphLine, Paragraph.text]
    | cons r rs =>
        simp only [setParagraphLine, Paragraph.text, List.isEmpty_cons, List.map_cons,
          map_text_blank, if_neg Bool.false_ne_true, String.join]
        induction rs with
        | nil => simp
        | cons r2 rs2 ih2 => simpa [List.replicate_succ] using ih2
  · intro bs ls
    simp only [rewriteBlocks, next_line_fst, next_line_snd]
  · intro c ps hc
    rcases c with ⟨cps⟩
    simp only at hc
    subst hc
    rfl

/-- Witness for C3: both the with-runs and the no-runs branch at concrete
paragraphs, plus the cell application. -/
theorem run_overwrite_policy_witness :
    (setParagraphLine ⟨4, [⟨1, "a"⟩, ⟨2, "bb"⟩, ⟨3, "c"⟩], ""⟩ "L").runs.map Run.text =
      ["L", "", ""] ∧
    setParagraphLine ⟨5, [], "old"⟩ "M" = { pStyle := 5, runs := [], directText := "M" } ∧
    rewriteCell ⟨[⟨6, [], "u"⟩, ⟨7, [], "v"⟩]⟩ "N" =
      ⟨setParagraphLine ⟨6, [], "u"⟩ "N" :: [⟨7, [], "v"⟩]⟩ := by
  refine ⟨?_, ?_, ?_⟩
  · have h := (run_overwrite_policy ⟨4, [⟨1, "a"⟩, ⟨2, "bb"⟩, ⟨3, "c"⟩], ""⟩ "L").2.1 (by simp)
    simpa using h
  · exact (run_overwrite_policy ⟨5, [], "old"⟩ "M").2.2.1 rfl
  · exact (run_overwrite_policy ⟨6, [], "u"⟩ "N").2.2.2.2.2 ⟨[⟨6, [], "u"⟩, ⟨7, [], "v"⟩]⟩
      [⟨7, [], "v"⟩] rfl

/-- C10: reinjection into a table cell mutates only the cell's first
paragraph — the tail of the paragraph list is returned untouched, both for a
single cell and across a whole row walk — even though the cell text read by
extraction concatenates all of the cell's paragraphs (shown for a
two-paragraph cell, whose second paragraph's text is part of `Cell.text`). -/
theorem cell_tail_paragraphs_untouched (c : Cell) (line : String) :
    (rewriteCell c line).paragraphs.drop 1 = c.paragraphs.drop 1 ∧
    (∀ (p : Paragraph) (ps : List Paragraph), c.paragraphs = p :: ps →
      rewriteCell c line = ⟨setParagraphLine p line :: ps⟩) ∧
    (∀ (cs : List Cell) (ls : List String),
      (rewriteCells cs ls).1.map (fun c2 => c2.paragraphs.drop 1) =
        cs.map (fun c2 => c2.paragraphs.drop 1)) ∧
    (∀ p1 p2 : Paragraph, Cell.text ⟨[p1, p2]⟩ = p1.text ++ "\n" ++ p2.text) := by
  refine ⟨?_, ?_, ?_, ?_⟩
  · rcases c with ⟨ps⟩
    cases ps with
    | nil => rfl
    | cons p ps => rfl
  · intro p ps hc
    rcases c with ⟨cps⟩
    simp only at hc
    subst hc
    rfl
  · intro cs
    induction cs with
    | nil => intro ls; rfl
    | cons c2 cs ih =>
        intro ls
        have hd : (rewriteCell c2 (next_line ls).1).paragraphs.drop 1 =
            c2.paragraphs.drop 1 := by
          rcases c2 with ⟨ps⟩
          cases ps with
          | nil => rfl
          | cons p ps => rfl
        simp only [rewriteCells, List.map_cons, List.cons.injEq]
        exact ⟨hd, ih _⟩
  · intro p1 p2
    rfl

/-- Witness for C10 at a concrete two-paragraph cell: the second paragraph
keeps its text and runs, and the cell text extraction covers both. -/
theorem cell_tail_paragraphs_untouched_witness :
    rewriteCell ⟨[⟨0, [⟨1, "first"⟩], ""⟩, ⟨2, [⟨3, "second"⟩], ""⟩]⟩ "new" =
      ⟨setParagraphLine ⟨0, [⟨1, "first"⟩], ""⟩ "new" :: [⟨2, [⟨3, "second"⟩], ""⟩]⟩ ∧
    Cell.text ⟨[⟨0, [⟨1, "first"⟩], ""⟩, ⟨2, [⟨3, "second"⟩], ""⟩]⟩ =
      Paragraph.text ⟨0, [⟨1, "first"⟩], ""⟩ ++ "\n" ++ Paragraph.text ⟨2, [⟨3, "second"⟩], ""⟩ := by
  constructor
  · exact (cell_tail_paragraphs_untouched
        ⟨[⟨0, [⟨1, "first"⟩], ""⟩, ⟨2, [⟨3, "second"⟩], ""⟩]⟩ "new").2.1
      ⟨0, [⟨1, "first"⟩], ""⟩ [⟨2, [⟨3, "second"⟩], ""⟩] rfl
  · exact (cell_tail_paragraphs_untouched ⟨[]⟩ "").2.2.2
      ⟨0, [⟨1, "first"⟩], ""⟩ ⟨2, [⟨3, "second"⟩], ""⟩

/-! Extraction is read-only. -/

lemma extractSt_eq (bs : List Block) :
    extractSt bs = ((bs.map blockSnapshot).flatten, bs) := by
  induction bs with
  | nil => rfl
  | cons b bs ih => simp [extractSt, ih]

/-- C8: an extraction pass never mutates the document.  In the
state-threading form of the extraction loop every walked block is returned
exactly as it was, the produced lines are the snapshot lines, and a second
walk of the document coming out of the pass yields the same block sequence
as the first walk, so the two independent walks of the protocol align. -/
theorem extraction_read_only (d : Document) :
    (extractSt (_iter_block_items d)).2 = _iter_block_items d ∧
    String.intercalate "\n" (extractSt (_iter_block_items d)).1 = extract_text_snapshot d ∧
    _iter_block_items ⟨(extractSt (_iter_block_items d)).2⟩ = _iter_block_items d := by
  refine ⟨?_, ?_, ?_⟩ <;>
    simp [extractSt_eq, _iter_block_items, extract_text_snapshot, snapshotLines]

/-- The end-to-end scenario document: paragraphs "Summary", "Built X", an
empty paragraph, then a one-cell table containing "Skills: Python". -/
def scenarioDoc : Document :=
  ⟨[Block.para ⟨0, [⟨0, "Summary"⟩], ""⟩,
    Block.para ⟨0, [⟨0, "Built X"⟩], ""⟩,
    Block.para ⟨0, [], ""⟩,
    Block.table ⟨0, [⟨[⟨[⟨0, [⟨0, "Skills: Python"⟩], ""⟩]⟩]⟩]⟩]⟩

/-- C6: on the scenario document, extraction yields exactly the three
non-empty lines, and reinjecting the three revised lines through the single
shared forward cursor lands them on the first three structural slots in walk
order — the third revised line (the rewritten skills row) goes into the
formerly empty third paragraph, and the table cell, reached after the cursor
is exhausted, receives the empty string. -/
theorem end_to_end_scenario :
    extract_text_snapshot scenarioDoc = "Summary\nBuilt X\nSkills: Python" ∧
    rewrite_doc_in_place scenarioDoc "Overview\nShipped X fast\nSkills: Python, Go" =
      ⟨[Block.para ⟨0, [⟨0, "Overview"⟩], ""⟩,
        Block.para ⟨0, [⟨0, "Shipped X fast"⟩], ""⟩,
        Block.para ⟨0, [], "Skills: Python, Go"⟩,
        Block.table ⟨0, [⟨[⟨[⟨0, [⟨0, ""⟩], ""⟩]⟩]⟩]⟩]⟩ := by
  constructor <;> rfl

/-- C5: a table whose first row's cells have texts "A" and "B" and whose
second row's cells have texts "C" and "D" is flattened by extraction to
exactly the two lines "A | B" then "C | D" (cell texts stripped, joined with
the fixed separator), in row order. -/
theorem table_flattening_two_rows (t : Table)
    (h : t.rows.map (fun r => r.cells.map Cell.text) = [["A", "B"], ["C", "D"]]) :
    snapshotLines ⟨[Block.table t]⟩ = ["A | B", "C | D"] ∧
    extract_text_snapshot ⟨[Block.table t]⟩ = "A | B\nC | D" := by
  rcases t with ⟨st, rows⟩
  simp only at h
  rcases rows with _ | ⟨r1, _ | ⟨r2, _ | ⟨r3, rest⟩⟩⟩ <;> simp at h
  obtain ⟨h1, h2⟩ := h
  rcases r1 with ⟨cs1⟩
  rcases cs1 with _ | ⟨c1, _ | ⟨c2, _ | ⟨c3, rest1⟩⟩⟩ <;> simp at h1
  obtain ⟨hA, hB⟩ := h1
  rcases r2 with ⟨cs2⟩
  rcases cs2 with _ | ⟨c3, _ | ⟨c4, _ | ⟨c5, rest2⟩⟩⟩ <;> simp at h2
  obtain ⟨hC, hD⟩ := h2
  have hs : snapshotLines ⟨[Block.table ⟨st, [⟨[c1, c2]⟩, ⟨[c3, c4]⟩]⟩]⟩ =
      ["A | B", "C | D"] := by
    simp only [snapshotLines, _iter_block_items, List.map_cons, List.map_nil,
      blockSnapshot, rowSnapshot, hA, hB, hC, hD]
    rfl
  exact ⟨hs, by simp only [extract_text_snapshot, hs]; rfl⟩

/-- Witness for C5 at a concrete 2x2 table of one-run single-paragraph
cells. -/
theorem table_flattening_two_rows_witness :
    snapshotLines ⟨[Block.table ⟨0,
      [⟨[⟨[⟨0, [⟨0, "A"⟩], ""⟩]⟩, ⟨[⟨0, [⟨0, "B"⟩], ""⟩]⟩]⟩,
       ⟨[⟨[⟨0, [⟨0, "C"⟩], ""⟩]⟩, ⟨[⟨0, [⟨0, "D"⟩], ""⟩]⟩]⟩]⟩]⟩ = ["A | B", "C | D"] ∧
    extract_text_snapshot ⟨[Block.table ⟨0,
      [⟨[⟨[⟨0, [⟨0, "A"⟩], ""⟩]⟩, ⟨[⟨0, [⟨0, "B"⟩], ""⟩]⟩]⟩,
       ⟨[⟨[⟨0, [⟨0, "C"⟩], ""⟩]⟩, ⟨[⟨0, [⟨0, "D"⟩], ""⟩]⟩]⟩]⟩]⟩ = "A | B\nC | D" :=
  table_flattening_two_rows ⟨0,
      [⟨[⟨[⟨0, [⟨0, "A"⟩], ""⟩]⟩, ⟨[⟨0, [⟨0, "B"⟩], ""⟩]⟩]⟩,
       ⟨[⟨[⟨0, [⟨0, "C"⟩], ""⟩]⟩, ⟨[⟨0, [⟨0, "D"⟩], ""⟩]⟩]⟩]⟩ rfl

/-! Retry loop of the rewriting-service adapter. -/

lemma transient_beq {n : Nat} (h : isTransientStatus n = true) : (n == 200) = false := by
  simp only [isTransientStatus, Bool.or_eq_true, beq_iff_eq] at h
  rcases h with h | h <;> subst h <;> rfl

lemma hfLoopAux_zero (rs : Nat → HfResponse) (att : Nat) :
    hfLoopAux rs att 0 = (HfResult.retryLimit, []) := rfl

lemma hfLoopAux_step_200 (rs : Nat → HfResponse) (att rem : Nat)
    (h : (rs att).status = 200) :
    hfLoopAux rs att (rem + 1) = (HfResult.ok (parse200 (rs att)), []) := by
  simp [hfLoopAux, h]

lemma hfLoopAux_step_transient (rs : Nat → HfResponse) (att rem : Nat)
    (h : isTransientStatus (rs att).status = true) :
    hfLoopAux rs att (rem + 1) =
      ((hfLoopAux rs (att + 1) rem).1,
       sleepDelay att :: (hfLoopAux rs (att + 1) rem).2) := by
  simp [hfLoopAux, transient_beq h, h]

lemma hfLoopAux_step_error (rs : Nat → HfResponse) (att rem : Nat)
    (h200 : (rs att).status ≠ 200) (htr : isTransientStatus (rs att).status = false) :
    hfLoopAux rs att (rem + 1) =
      (HfResult.apiError (rs att).status (rs att).payload, []) := by
  have hb : ((rs att).status == 200) = false := by simpa using h200
  simp [hfLoopAux, hb, htr]

lemma hfLoopAux_skip (rs : Nat → HfResponse) :
    ∀ (k att rem : Nat), k ≤ rem →
      (∀ i, i < k → isTransientStatus (rs (att + i)).status = true) →
      hfLoopAux rs att rem =
        ((hfLoopAux rs (att + k) (rem - k)).1,
         (List.range k).map (fun i => sleepDelay (att + i)) ++
           (hfLoopAux rs (att + k) (rem - k)).2) := by
  intro k
  induction k with
  | zero => intro att rem _ _; simp
  | succ k ih =>
      intro att rem hk h
      obtain ⟨rem', rfl⟩ : ∃ r, rem = r + 1 := ⟨rem - 1, by omega⟩
      have h0 : isTransientStatus (rs att).status = true := by simpa using h 0 (by omega)
      rw [hfLoopAux_step_transient rs att rem' h0]
      have h' : ∀ i, i < k → isTransientStatus (rs (att + 1 + i)).status = true := by
        intro i hi
        have hx := h (i + 1) (by omega)
        have e : att + (i + 1) = att + 1 + i := by omega
        rwa [e] at hx
      rw [ih (att + 1) rem' (by omega) h']
      have e1 : att + 1 + k = att + (k + 1) := by omega
      have e2 : rem' - k = rem' + 1 - (k + 1) := by omega
      rw [e1, e2]
      have hB : (List.range (k + 1)).map (fun i => sleepDelay (att + i)) =
          sleepDelay att :: (List.range k).map (fun i => sleepDelay (att + 1 + i)) := by
        rw [List.range_succ_eq_map]
        simp only [List.map_cons, List.map_map, Nat.add_zero]
        congr 1
        apply List.map_congr_left
        intro i _
        simp only [Function.comp_apply]
        congr 1
        omega
      rw [hB]
      simp

/-- C9: the rewriting-service adapter loops over at most 5 attempts.  If all
5 attempts hit a transient response (503 model-loading or 429 rate-limit) the
loop exhausts, sleeping the increasing delays 3,5,7,9,11 seconds, and raises
the permanent retry-limit failure.  If the first `k` attempts are transient
and attempt `k` succeeds (or fails non-transiently), the loop returns the
parsed text (or raises that error immediately) after exactly the first `k`
delays — so a non-transient error is surfaced without any retry.  The delay
schedule is strictly increasing. -/
theorem hf_adapter_retry_policy (rs : Nat → HfResponse) :
    ((∀ i, i < 5 → isTransientStatus (rs i).status = true) →
      call_hf_llm rs = (HfResult.retryLimit,
        [sleepDelay 0, sleepDelay 1, sleepDelay 2, sleepDelay 3, sleepDelay 4])) ∧
    (∀ k, k < 5 → (∀ i, i < k → isTransientStatus (rs i).status = true) →
      (rs k).status = 200 →
      call_hf_llm rs = (HfResult.ok (parse200 (rs k)), (List.range k).map sleepDelay)) ∧
    (∀ k, k < 5 → (∀ i, i < k → isTransientStatus (rs i).status = true) →
      isTransientStatus (rs k).status = false → (rs k).status ≠ 200 →
      call_hf_llm rs = (HfResult.apiError (rs k).status (rs k).payload,
        (List.range k).map sleepDelay)) ∧
    (∀ a b : Nat, a < b → sleepDelay a < sleepDelay b) := by
  refine ⟨?_, ?_, ?_, ?_⟩
  · intro h
    have hs := hfLoopAux_skip rs 5 0 5 (by omega) (by intro i hi; simpa using h i hi)
    have : call_hf_llm rs = hfLoopAux rs 0 5 := rfl
    rw [this, hs]
    simp [hfLoopAux_zero, List.range_succ]
  · intro k hk h h200
    have hs := hfLoopAux_skip rs k 0 5 (by omega) (by intro i hi; simpa using h i hi)
    have hc : call_hf_llm rs = hfLoopAux rs 0 5 := rfl
    rw [hc, hs]
    have e : 5 - k = (4 - k) + 1 := by omega
    rw [e]
    rw [hfLoopAux_step_200 rs (0 + k) (4 - k) (by simpa using h200)]
    simp
  · intro k hk h htr h200
    have hs := hfLoopAux_skip rs k 0 5 (by omega) (by intro i hi; simpa using h i hi)
    have hc : call_hf_llm rs = hfLoopAux rs 0 5 := rfl
    rw [hc, hs]
    have e : 5 - k = (4 - k) + 1 := by omega
    rw [e]
    rw [hfLoopAux_step_error rs (0 + k) (4 - k) (by simpa using h200) (by simpa using htr)]
    simp
  · intro a b hab
    simp only [sleepDelay]
    omega

/-- Witness for C9: exhaustion on five 503s with the delays 3,5,7,9,11; a 429
followed by a 200 retried once; a 401 surfaced immediately with no sleep; and
one concrete delay increase. -/
theorem hf_adapter_retry_policy_witness :
    call_hf_llm (fun _ => ⟨503, ""⟩) =
      (HfResult.retryLimit, [sleepDelay 0, sleepDelay 1, sleepDelay 2, sleepDelay 3,
        sleepDelay 4]) ∧
    call_hf_llm (fun i => if i = 0 then ⟨429, ""⟩ else ⟨200, " hi "⟩) =
      (HfResult.ok (parse200 ⟨200, " hi "⟩), (List.range 1).map sleepDelay) ∧
    call_hf_llm (fun _ => ⟨401, "bad"⟩) =
      (HfResult.apiError 401 "bad", (List.range 0).map sleepDelay) ∧
    sleepDelay 0 < sleepDelay 1 := by
  refine ⟨?_, ?_, ?_, ?_⟩
  · exact (hf_adapter_retry_policy _).1 (by intro i _; rfl)
  · have h := (hf_adapter_retry_policy (fun i => if i = 0 then ⟨429, ""⟩ else ⟨200, " hi "⟩)).2.1
      1 (by omega) (by intro i hi; interval_cases i; rfl) (by rfl)
    simpa using h
  · have h := (hf_adapter_retry_policy (fun _ => ⟨401, "bad"⟩)).2.2.1
      0 (by omega) (by intro i hi; omega) (by rfl) (by simp)
    simpa using h
  · exact (hf_adapter_retry_policy (fun _ => ⟨0, ""⟩)).2.2.2 0 1 (by omega)

/-! Line splitting and right-stripping of the revised text. -/

lemma splitlinesGo_cons_nb (c : Char) (rest acc : List Char) (hc : isLineBreak c = false) :
    splitlinesGo false (c :: rest) acc = splitlinesGo false rest (c :: acc) := by
  have h1 : (c = '\n') = False := by
    simp only [eq_iff_iff, iff_false]
    intro h; subst h; simp [isLineBreak] at hc
  have h2 : (c = '\r') = False := by
    simp only [eq_iff_iff, iff_false]
    intro h; subst h; simp [isLineBreak] at hc
  simp [splitlinesGo, h1, h2, hc]

lemma splitlinesGo_append_nl (cs : List Char) : ∀ (acc rest : List Char),
    (∀ c ∈ cs, isLineBreak c = false) →
    splitlinesGo false (cs ++ '\n' :: rest) acc =
      String.mk (acc.reverse ++ cs) :: splitlinesGo false rest [] := by
  induction cs with
  | nil =>
      intro acc rest _
      simp only [List.nil_append, List.append_nil]
      rfl
  | cons c cs ih =>
      intro acc rest h
      rw [List.cons_append, splitlinesGo_cons_nb c _ acc (h c (List.mem_cons_self _ _)),
        ih (c :: acc) rest (fun c2 h2 => h c2 (List.mem_cons_of_mem c h2))]
      congr 1
      simp

lemma splitlinesGo_final (cs : List Char) : ∀ acc : List Char,
    (∀ c ∈ cs, isLineBreak c = false) →
    splitlinesGo false cs acc =
      if (acc.reverse ++ cs).isEmpty then [] else [String.mk (acc.reverse ++ cs)] := by
  induction cs with
  | nil =>
      intro acc _
      cases acc with
      | nil => rfl
      | cons a t => simp [splitlinesGo]
  | cons c cs ih =>
      intro acc h
      rw [splitlinesGo_cons_nb c _ acc (h c (List.mem_cons_self _ _)),
        ih (c :: acc) (fun c2 h2 => h c2 (List.mem_cons_of_mem c h2))]
      have e : (c :: acc).reverse ++ cs = acc.reverse ++ (c :: cs) := by simp
      rw [e]

lemma intercalate_nl_cons_cons (x y : List Char) (zs : List (List Char)) :
    List.intercalate ['\n'] (x :: y :: zs) =
      x ++ '\n' :: List.intercalate ['\n'] (y :: zs) := by
  simp [List.intercalate, List.intersperse_cons_cons]

lemma splitlines_joined : ∀ (ls : List String),
    (∀ l ∈ ls, ∀ c ∈ l.data, isLineBreak c = false) →
    ls.getLast? ≠ some "" →
    splitlinesGo false (List.intercalate ['\n'] (ls.map String.data)) [] = ls := by
  intro ls
  induction ls with
  | nil => intro _ _; rfl
  | cons l t ih =>
      intro h hlast
      cases t with
      | nil =>
          have hl : l ≠ "" := fun he => hlast (by simp [he])
          have hd : l.data ≠ [] := by
            intro he
            apply hl
            cases l with
            | mk d => simp at he; simp [he]
          simp only [List.map_cons, List.map_nil, List.intercalate, List.intersperse_singleton,
            List.flatten_cons, List.flatten_nil, List.append_nil]
          rw [splitlinesGo_final l.data [] (h l (List.mem_cons_self _ _))]
          have hemp : (([] : List Char).reverse ++ l.data).isEmpty = false := by
            simp [List.isEmpty_iff, hd]
          rw [hemp]
          simp only [Bool.false_eq_true, if_false, List.reverse_nil, List.nil_append]
      | cons l2 t2 =>
          simp only [List.map_cons]
          rw [intercalate_nl_cons_cons l.data l2.data (t2.map String.data),
            splitlinesGo_append_nl l.data [] _ (h l (List.mem_cons_self _ _))]
          have ht : splitlinesGo false (List.intercalate ['\n']
              ((l2 :: t2).map String.data)) [] = l2 :: t2 := by
            apply ih
            · intro l3 h3 c hc
              exact h l3 (List.mem_cons_of_mem l h3) c hc
            · rwa [List.getLast?_cons_cons] at hlast
          simp only [List.map_cons] at ht
          rw [ht]
          simp

lemma rev_take_drop (l : List Char) (p : Char → Bool) :
    l = (l.reverse.dropWhile p).reverse ++ (l.reverse.takeWhile p).reverse := by
  conv_lhs => rw [← List.reverse_reverse l,
    ← List.takeWhile_append_dropWhile (p := p) (l := l.reverse)]
  rw [List.reverse_append]

lemma dropWhile_head_not (p : Char → Bool) : ∀ (l : List Char) (c : Char),
    (l.dropWhile p).head? = some c → p c = false := by
  intro l
  induction l with
  | nil => intro c h; simp [List.dropWhile] at h
  | cons a t ih =>
      intro c h
      rw [List.dropWhile_cons] at h
      by_cases hp : p a
      · simp only [hp, if_true] at h
        exact ih c h
      · simp only [hp, Bool.false_eq_true, if_false, List.head?_cons,
          Option.some.injEq] at h
        subst h
        simpa using hp

/-- C7: the reinjection's line preprocessing.  Splitting is at newline
boundaries and drops no empty line and no leading whitespace: a revised text
whose characters are any list of break-free lines (the last one non-empty)
joined by single newlines splits back to exactly those lines, interior empty
lines and leading blanks included.  Right-stripping removes only a trailing
run of whitespace: every string is its right-strip followed by whitespace
characters only, and the right-strip never ends in whitespace.  Reinjection
applies exactly this `splitlines`-then-`rstrip` preprocessing to the revised
text. -/
theorem revised_text_line_splitting :
    (∀ (s : String) (ls : List String),
      s.data = List.intercalate ['\n'] (ls.map String.data) →
      (∀ l ∈ ls, ∀ c ∈ l.data, isLineBreak c = false) →
      ls.getLast? ≠ some "" →
      splitlines s = ls) ∧
    (∀ s : String,
      s.data = (pyRstrip s).data ++ (s.data.reverse.takeWhile pyWhitespace).reverse ∧
      (∀ c ∈ (s.data.reverse.takeWhile pyWhitespace).reverse, pyWhitespace c = true) ∧
      (∀ c, (pyRstrip s).data.getLast? = some c → pyWhitespace c = false)) ∧
    (∀ (d : Document) (revised_text : String),
      rewrite_doc_in_place d revised_text =
        ⟨(rewriteBlocks (_iter_block_items d) ((splitlines revised_text).map pyRstrip)).1⟩) := by
  refine ⟨?_, ?_, ?_⟩
  · intro s ls hdata h hlast
    show splitlinesGo false s.data [] = ls
    rw [hdata]
    exact splitlines_joined ls h hlast
  · intro s
    refine ⟨rev_take_drop s.data pyWhitespace, ?_, ?_⟩
    · intro c hc
      exact List.mem_takeWhile_imp (List.mem_reverse.1 hc)
    · intro c hc
      apply dropWhile_head_not pyWhitespace s.data.reverse
      rw [← List.getLast?_reverse]
      exact hc
  · intro d revised_text
    rfl

/-- Witness for C7: a concrete revised text with an interior empty line and
leading/trailing blanks splits to the verbatim lines, and a concrete
right-strip decomposition. -/
theorem revised_text_line_splitting_witness :
    splitlines "  a\n\nb c " = ["  a", "", "b c "] ∧
    ("x \t").data = (pyRstrip "x \t").data ++
      (("x \t").data.reverse.takeWhile pyWhitespace).reverse ∧
    pyWhitespace 'x' = false := by
  refine ⟨?_, ?_, ?_⟩
  · exact revised_text_line_splitting.1 "  a\n\nb c " ["  a", "", "b c "]
      (by decide) (by decide) (by decide)
  · exact (revised_text_line_splitting.2.1 "x \t").1
  · exact (revised_text_line_splitting.2.1 "x \t").2.2 'x' (by decide)

end ResumeTailor
